import Mathlib

set_option maxHeartbeats 1000000

/- Shallow embedding of the register-access engine of the DHBW electrolyzer
poller (files `modbus_device.rs`, `register.rs`, `electrolyzer.rs`, `main.rs`),
together with theorems about the catalog loader, the read-range coalescing
loop, the word decoder and the poll-loop error handling.

Machine integers (`u16`) are modelled as `Nat`; every arithmetic step of the
source is within `u16` range on the inputs considered (stated as hypotheses
where a general theorem needs them).  `f32::from_le_bytes` is a pure bit
reinterpretation, so a `Float32` value is modelled by its 32-bit pattern.
Rust panics (out-of-bounds indexing / slicing) are modelled explicitly as a
distinct `panicked` outcome rather than being conflated with `Err`. -/

/-- The tag set `register::DataType` of `modbus_device.rs`. -/
inductive DataType
| UInt16
| UInt32
| UInt64
| UInt128
| Int32
| Enum16
| Sized
| Float32
| Boolean
deriving DecidableEq, Inhabited

/-- The `RegisterValue` union from `modbus_device.rs`.  `Float32` holds the IEEE-754 bit
pattern (what `f32::from_le_bytes` reinterprets), `Sized` the 66 raw bytes. -/
inductive RegisterValue
| U16 (v : Nat)
| U32 (v : Nat)
| U64 (v : Nat)
| U128 (v : Nat)
| S32 (v : Int)
| Enum16 (v : Nat)
| Sized (bytes : List Nat)
| Float32 (bits : Nat)
| Boolean (b : Bool)
deriving DecidableEq

/-- The call `u16::to_be_bytes`: the two big-endian bytes of a 16-bit word. -/
def u16BeBytes (w : Nat) : List Nat := [w / 256 % 256, w % 256]

/-- The byte buffer built at the top of the `TryFrom` impl:
`raw.iter().map(|v| v.to_be_bytes()).flatten().rev().collect()`. -/
def rawBytesOfWords (raw : List Nat) : List Nat :=
  ((raw.map u16BeBytes).flatten).reverse

/-- Reading of `from_le_bytes` on a byte list: little-endian base-256 value. -/
def leValue (bytes : List Nat) : Nat :=
  bytes.foldr (fun b acc => b + 256 * acc) 0

/-- Twos-complement reading of a 32-bit pattern (`i32::from_le_bytes`). -/
def toSigned32 (n : Nat) : Int :=
  if n < 2 ^ 31 then (n : Int) else (n : Int) - 2 ^ 32

/-- Outcome of the `TryFrom<(Vec<u16>, DataType)>` conversion.  `err` carries
the byte buffer (the `Error` type of the impl is `Vec<u8>`); `panicked` models the
Rust panic of `raw[0]` on an empty vector. -/
inductive DecodeResult
| ok (v : RegisterValue)
| err (bytes : List Nat)
| panicked
deriving DecidableEq

/-- The impl `TryFrom<(Vec<u16>, register::DataType)> for RegisterValue`
(`modbus_device.rs` lines 107-147), case by case.  The `raw_b.try_into()`
calls succeed exactly when the byte buffer has the length of the target array;
`raw[0]` panics on an empty input. -/
def tryFromWords (raw : List Nat) (kind : DataType) : DecodeResult :=
  let raw_b := rawBytesOfWords raw
  match kind with
  | .UInt16 =>
    match raw with
    | [] => .panicked
    | w :: _ => .ok (.U16 w)
  | .UInt32 =>
    if raw_b.length = 4 then .ok (.U32 (leValue raw_b)) else .err raw_b
  | .UInt64 =>
    if raw_b.length = 8 then .ok (.U64 (leValue raw_b)) else .err raw_b
  | .UInt128 =>
    if raw_b.length = 16 then .ok (.U128 (leValue raw_b)) else .err raw_b
  | .Int32 =>
    if raw_b.length = 4 then .ok (.S32 (toSigned32 (leValue raw_b))) else .err raw_b
  | .Enum16 =>
    match raw with
    | [] => .panicked
    | w :: _ => .ok (.Enum16 w)
  | .Sized =>
    if raw_b.length = 66 then .ok (.Sized raw_b) else .err raw_b
  | .Float32 =>
    if raw_b.length = 4 then .ok (.Float32 (leValue raw_b)) else .err raw_b
  | .Boolean =>
    match raw with
    | [] => .panicked
    | w :: _ => .ok (.Boolean (decide (65535 ^^^ w = 0)))

/-- The struct `register::Register` (`register.rs`), with the `data_type` as used by
`modbus_device.rs` (the `register::DataType` tag). -/
structure Register where
  name : String
  addr : Nat
  len : Nat
  data_type : DataType
deriving DecidableEq, Inhabited

/-- One record of the register json: `RawRegister` of `modbus_device.rs`. -/
structure RawRegister where
  id : Nat
  name : String
  type_ : DataType
  len : Nat
deriving DecidableEq

/-- The `Register` built for one record by `modbus_device::get_defs_from_json`:
`addr` is the `id` of the record and `len` is `f.len / 16` (truncating). -/
def toRegister (f : RawRegister) : Register :=
  { name := f.name, addr := f.id, len := f.len / 16, data_type := f.type_ }

/-- Lookup in a `HashMap` where later inserts overwrite earlier ones: the map is
kept as the insertion list and the last binding of a key wins. -/
def mapLookup {α : Type} (m : List (String × α)) (k : String) : Option α :=
  m.foldl (fun acc p => if p.1 = k then some p.2 else acc) none

/-- The loader `modbus_device::get_defs_from_json` (lines 165-180): insert one entry per
record, keyed by name (insertion into the `HashMap` overwrites). -/
def get_defs_from_json (records : List RawRegister) : List (String × Register) :=
  records.map (fun f => (f.name, toRegister f))

/-- The `Register` struct as defined in the `electrolyzer.rs` module (its
`data_type` is a plain string). -/
structure ERegister where
  name : String
  addr : Nat
  len : Nat
  data_type : String
deriving DecidableEq

/-- One record of the register json as read by `electrolyzer.rs`. -/
structure ERawRegister where
  id : Nat
  name : String
  type_ : String
  len : Nat
deriving DecidableEq

/-- The register built for one record by `electrolyzer::get_defs_from_json`
(lines 31-46): note `len := f.len` verbatim, with no division by 16. -/
def Electrolyzer.toRegister (f : ERawRegister) : ERegister :=
  { name := f.name, addr := f.id, len := f.len, data_type := f.type_ }

/-- The loader `electrolyzer::get_defs_from_json`. -/
def Electrolyzer.get_defs_from_json (records : List ERawRegister) :
    List (String × ERegister) :=
  records.map (fun f => (f.name, Electrolyzer.toRegister f))

/-- The kinds of `std::io::ErrorKind` the program distinguishes. -/
inductive IOErrorKind
| BrokenPipe
| ConnectionReset
| TimedOut
| OtherKind
deriving DecidableEq

/-- A `std::io::Error`, identified by its kind. -/
structure IOError where
  kind : IOErrorKind
deriving DecidableEq

/-- The `tokio_modbus::Error` type: the transport variant wraps an io error. -/
inductive TokioModbusError
| Transport (e : IOError)
| OtherVariant
deriving DecidableEq

/-- The error enum `ModbusError` from `modbus_device.rs` (lines 22-27). -/
inductive ModbusError
| Exception (code : Nat)
| IOerror (e : IOError)
| ModbusError (e : TokioModbusError)
deriving DecidableEq

/-- How a run of `read_input_registers` can stop early: a transport error
propagated by `?`, or a Rust panic (out-of-bounds slice / index). -/
inductive LoopAbort
| transport (e : ModbusError)
| panicked
deriving DecidableEq

/-- The per-batch conversion loop of `read_input_registers` (lines 254-272):
for each member register of the flushed batch, slice the raw words at
`start_off .. start_off + len` (a Rust slice, which panics when out of range)
and run the `TryFrom` conversion; a conversion `Err` drops that one register,
everything else is collected in order. -/
def decodeBatch (words : List Nat) (baseAddr : Nat) :
    List Register → Except LoopAbort (List (String × RegisterValue))
| [] => .ok []
| v :: rest =>
  let start_off := v.addr - baseAddr
  if start_off + v.len ≤ words.length then
    match tryFromWords ((words.drop start_off).take v.len) v.data_type with
    | .panicked => .error .panicked
    | .err _ => decodeBatch words baseAddr rest
    | .ok rv =>
      match decodeBatch words baseAddr rest with
      | .error a => .error a
      | .ok m => .ok ((v.name, rv) :: m)
  else .error .panicked

/-- The constant `MODBUS_MAX_READ_LEN` (`modbus_device.rs` line 15). -/
def MODBUS_MAX_READ_LEN : Nat := 125

/-- Indexing `l[i]` as the loop uses it; every in-loop access is in bounds, so the
default value is never what the result depends on. -/
def getR (regs : List Register) (i : Nat) : Register :=
  regs.getD i default

/-- The scan of `read_input_registers` (lines 234-281), one recursive step per
loop iteration `i` (the Rust `i` after the `i = i + 1` shift).  The state is
`(i, reg_range_start, reg_range_end)` plus the accumulated transport calls and
result entries.  A step either flushes the pending batch — when the span from
the start register exceeds `MODBUS_MAX_READ_LEN`, or contiguity breaks, or
`i == regs.len() - 1` — or just advances `reg_range_end`.  The flush records
the `(addr, nb)` arguments passed to `read_raw_input_registers` and then
decodes the batch `regs[reg_range_start ..= reg_range_end]`.  `fuel` only
bounds the recursion; any `fuel ≥ regs.length - i` gives the behaviour of the loop,
and callers pass `regs.length`. -/
def readLoop (tr : Nat → Nat → Except ModbusError (List Nat))
    (regs : List Register) :
    Nat → Nat → Nat → Nat → List (Nat × Nat) → List (String × RegisterValue) →
    List (Nat × Nat) × Except LoopAbort (List (String × RegisterValue))
| 0, _, _, _, calls, result => (calls, .ok result)
| fuel + 1, i, start, end_, calls, result =>
  if i < regs.length then
    let r := getR regs i
    if MODBUS_MAX_READ_LEN < r.addr - (getR regs start).addr
        ∨ r.addr ≠ (getR regs end_).addr + (getR regs end_).len
        ∨ i = regs.length - 1 then
      let s_reg := getR regs start
      let e_reg := getR regs end_
      let nb := e_reg.addr + e_reg.len - s_reg.addr
      let calls' := calls ++ [(s_reg.addr, nb)]
      match tr s_reg.addr nb with
      | .error e => (calls', .error (.transport e))
      | .ok read_regs =>
        match decodeBatch read_regs s_reg.addr
            ((regs.drop start).take (end_ + 1 - start)) with
        | .error a => (calls', .error a)
        | .ok m => readLoop tr regs fuel (i + 1) i i calls' (result ++ m)
    else readLoop tr regs fuel (i + 1) start i calls result
  else (calls, .ok result)

/-- The relation `sort_by_key(|s| s.addr)` sorts by. -/
def regLE (a b : Register) : Prop := a.addr ≤ b.addr

instance : DecidableRel regLE := fun a b => Nat.decLe a.addr b.addr

instance : IsTotal Register regLE := ⟨fun a b => Nat.le_total a.addr b.addr⟩

instance : IsTrans Register regLE := ⟨fun _ _ _ => Nat.le_trans⟩

/-- The method `read_input_registers` (lines 221-284): sort the requested registers by
address (a stable sort), then run the scan from `i = 1` with both range
indices at `0`.  The first component collects every `(addr, nb)` pair passed
to `read_raw_input_registers`; the second is the merged name → value map
(later entries overwrite earlier ones under `mapLookup`), or the abort. -/
def read_input_registers (tr : Nat → Nat → Except ModbusError (List Nat))
    (regs : List Register) :
    List (Nat × Nat) × Except LoopAbort (List (String × RegisterValue)) :=
  let sorted := List.insertionSort regLE regs
  readLoop tr sorted sorted.length 1 0 0 [] []

/-- The method `read_input_registers_by_name` (lines 204-219): look every name up in the
catalog, drop (with a warning) the ones that are absent, and read the
registers found. -/
def read_input_registers_by_name (tr : Nat → Nat → Except ModbusError (List Nat))
    (catalog : List (String × Register)) (names : List String) :
    List (Nat × Nat) × Except LoopAbort (List (String × RegisterValue)) :=
  read_input_registers tr (names.filterMap (fun n => mapLookup catalog n))

/-- What one call of `manage_modbus_error` (`main.rs` lines 137-170) does,
as observable by the poll loop: it always returns `Err` (so the
`Ok(_) => panic!` arm is dead and the cycle continues), except that on a
broken-pipe transport error it first blocks in `backoff::retry` reconnecting,
and `.unwrap()` panics if every attempt the backoff policy makes fails. -/
inductive ManageResult
| errContinue (reconnected : Bool)
| panicked
deriving DecidableEq

/-- Does the error match
`ModbusError::ModbusError(tokio_modbus::Error::Transport(e))` with
`e.kind() == std::io::ErrorKind::BrokenPipe` — the only pattern for which
`manage_modbus_error` reconnects? -/
def isBrokenPipeTransport : ModbusError → Bool
| .ModbusError (.Transport e) => e.kind = IOErrorKind.BrokenPipe
| _ => false

/-- Outcome of `backoff::retry` over the sequence of outcomes of the reconnection
attempts the policy makes before giving up: it succeeds iff some attempt
succeeds. -/
def retrySucceeds (attempts : List Bool) : Bool := attempts.any id

/-- The function `manage_modbus_error` (`main.rs` lines 137-170).  `attempts` is the
sequence of `electrolyzer.connect()` outcomes seen by `backoff::retry`. -/
def manage_modbus_error (err : ModbusError) (attempts : List Bool) :
    ManageResult :=
  match err with
  | .ModbusError (.Transport e) =>
    match e.kind with
    | .BrokenPipe =>
      if retrySucceeds attempts then .errContinue true else .panicked
    | _ => .errContinue false
  | _ => .errContinue false

/-- What the `main` poll loop (lines 243-252) does with a failed
`dump_input_registers` cycle. -/
inductive CycleOutcome
| continueLoop
| terminated
deriving DecidableEq

/-- The `Err(err) => match manage_modbus_error(..) { Ok(_) => panic!, Err(_) =>
continue }` arm of the poll loop: `manage_modbus_error` never returns `Ok`, so
the cycle continues unless the reconnection `.unwrap()` panicked. -/
def pollCycleOnError (err : ModbusError) (attempts : List Bool) : CycleOutcome :=
  match manage_modbus_error err attempts with
  | .errContinue _ => .continueLoop
  | .panicked => .terminated

/-- The byte buffer always has two bytes per input word. -/
lemma rawBytes_length (raw : List Nat) :
    (rawBytesOfWords raw).length = 2 * raw.length := by
  induction raw with
  | nil => rfl
  | cons w ws ih =>
    simp [rawBytesOfWords, u16BeBytes] at ih ⊢
    omega

/-- Is the conversion outcome an `Err`? -/
def isDecodeErr : DecodeResult → Bool
| .err _ => true
| _ => false

/-- C7.  Boolean decode rule: decoding a non-empty word sequence with type
`Boolean` succeeds and yields the truth of `!raw[0] == 0` (complement over the
16-bit word, written as xor with the all-ones mask), and that test holds
exactly when the first word is the all-ones pattern `0xFFFF`; every other
first word gives `false`. -/
theorem c7_boolean_decode_rule (w : Nat) (rest : List Nat) :
    tryFromWords (w :: rest) DataType.Boolean
      = .ok (.Boolean (decide (65535 ^^^ w = 0)))
    ∧ ((65535 ^^^ w = 0) ↔ w = 65535) := by
  refine ⟨rfl, ?_⟩
  rw [Nat.xor_eq_zero]
  exact eq_comm

/-- C4 counterexample.  The claim says the decoder errors iff the word count
differs from the width of the type (1 for `UInt16`); but on the two-word input
`[1, 2]` with type `UInt16` the decoder succeeds (no length check is made on
the one-word paths), so "error iff mismatch" is false. -/
theorem c4_counterexample :
    tryFromWords [1, 2] DataType.UInt16 = .ok (.U16 1)
    ∧ ([1, 2] : List Nat).length ≠ 1 := by
  exact ⟨rfl, by decide⟩

/-- C4 amended.  For the multi-word types the conversion returns an `Err`
exactly when the word count differs from the required width (2 for
`UInt32`/`Int32`/`Float32`, 4 for `UInt64`, 8 for `UInt128`, 33 for `Sized`),
and succeeds when it matches.  The one-word types (`UInt16`, `Enum16`,
`Boolean`) never check the length: any non-empty input decodes from the first
word whatever its length, and the empty input panics instead of erroring. -/
theorem c4_amended_decode_err_iff (raw : List Nat) :
    (isDecodeErr (tryFromWords raw DataType.UInt32) = true ↔ raw.length ≠ 2)
    ∧ (isDecodeErr (tryFromWords raw DataType.Int32) = true ↔ raw.length ≠ 2)
    ∧ (isDecodeErr (tryFromWords raw DataType.Float32) = true ↔ raw.length ≠ 2)
    ∧ (isDecodeErr (tryFromWords raw DataType.UInt64) = true ↔ raw.length ≠ 4)
    ∧ (isDecodeErr (tryFromWords raw DataType.UInt128) = true ↔ raw.length ≠ 8)
    ∧ (isDecodeErr (tryFromWords raw DataType.Sized) = true ↔ raw.length ≠ 33)
    ∧ (raw.length = 2 →
        (∃ v, tryFromWords raw DataType.UInt32 = .ok v)
        ∧ (∃ v, tryFromWords raw DataType.Int32 = .ok v)
        ∧ (∃ v, tryFromWords raw DataType.Float32 = .ok v))
    ∧ (raw.length = 4 → ∃ v, tryFromWords raw DataType.UInt64 = .ok v)
    ∧ (raw.length = 8 → ∃ v, tryFromWords raw DataType.UInt128 = .ok v)
    ∧ (raw.length = 33 → ∃ v, tryFromWords raw DataType.Sized = .ok v)
    ∧ (∀ w rest, raw = w :: rest →
        tryFromWords raw DataType.UInt16 = .ok (.U16 w)
        ∧ tryFromWords raw DataType.Enum16 = .ok (.Enum16 w)
        ∧ tryFromWords raw DataType.Boolean
            = .ok (.Boolean (decide (65535 ^^^ w = 0))))
    ∧ (raw = [] →
        tryFromWords raw DataType.UInt16 = .panicked
        ∧ tryFromWords raw DataType.Enum16 = .panicked
        ∧ tryFromWords raw DataType.Boolean = .panicked) := by
  have hlen := rawBytes_length raw
  refine ⟨?_, ?_, ?_, ?_, ?_, ?_, ?_, ?_, ?_, ?_, ?_, ?_⟩
  · by_cases hc : (rawBytesOfWords raw).length = 4 <;>
      simp [tryFromWords, isDecodeErr, hc] <;> omega
  · by_cases hc : (rawBytesOfWords raw).length = 4 <;>
      simp [tryFromWords, isDecodeErr, hc] <;> omega
  · by_cases hc : (rawBytesOfWords raw).length = 4 <;>
      simp [tryFromWords, isDecodeErr, hc] <;> omega
  · by_cases hc : (rawBytesOfWords raw).length = 8 <;>
      simp [tryFromWords, isDecodeErr, hc] <;> omega
  · by_cases hc : (rawBytesOfWords raw).length = 16 <;>
      simp [tryFromWords, isDecodeErr, hc] <;> omega
  · by_cases hc : (rawBytesOfWords raw).length = 66 <;>
      simp [tryFromWords, isDecodeErr, hc] <;> omega
  · intro h
    have hc : (rawBytesOfWords raw).length = 4 := by omega
    refine ⟨⟨.U32 (leValue (rawBytesOfWords raw)), by simp [tryFromWords, hc]⟩,
      ⟨.S32 (toSigned32 (leValue (rawBytesOfWords raw))), by simp [tryFromWords, hc]⟩,
      ⟨.Float32 (leValue (rawBytesOfWords raw)), by simp [tryFromWords, hc]⟩⟩
  · intro h
    have hc : (rawBytesOfWords raw).length = 8 := by omega
    exact ⟨.U64 (leValue (rawBytesOfWords raw)), by simp [tryFromWords, hc]⟩
  · intro h
    have hc : (rawBytesOfWords raw).length = 16 := by omega
    exact ⟨.U128 (leValue (rawBytesOfWords raw)), by simp [tryFromWords, hc]⟩
  · intro h
    have hc : (rawBytesOfWords raw).length = 66 := by omega
    exact ⟨.Sized (rawBytesOfWords raw), by simp [tryFromWords, hc]⟩
  · rintro w rest rfl
    exact ⟨rfl, rfl, rfl⟩
  · rintro rfl
    exact ⟨rfl, rfl, rfl⟩

/-- C4 witness: the amended statement at concrete inputs, each hypothesis
discharged there. -/
theorem c4_amended_witness :
    (∃ v, tryFromWords [258, 772] DataType.UInt32 = .ok v)
    ∧ tryFromWords [5, 6] DataType.UInt16 = .ok (.U16 5)
    ∧ tryFromWords [] DataType.Enum16 = .panicked :=
  ⟨((c4_amended_decode_err_iff [258, 772]).2.2.2.2.2.2.1 (by decide)).1,
    ((c4_amended_decode_err_iff [5, 6]).2.2.2.2.2.2.2.2.2.2.1 5 [6] rfl).1,
    ((c4_amended_decode_err_iff []).2.2.2.2.2.2.2.2.2.2.2 rfl).2.1⟩

/-- C10.  The one-word decode paths index `raw[0]` with no length check, so
the empty word sequence panics for `UInt16`, `Enum16` and `Boolean` instead
of producing a decode error; the input is reachable: a loaded record with a
bit length below 16 yields a register of zero words, and reading a request
containing such a register makes `read_input_registers` slice an empty buffer
for it and panic (here: registers `p0` of length 0 and `p1`, whose batch read
returns zero words). -/
theorem c10_one_word_decode_panics_on_empty :
    tryFromWords [] DataType.UInt16 = .panicked
    ∧ tryFromWords [] DataType.Enum16 = .panicked
    ∧ tryFromWords [] DataType.Boolean = .panicked
    ∧ (toRegister { id := 0, name := "p0", type_ := DataType.UInt16, len := 15 }).len = 0
    ∧ read_input_registers (fun _ n => .ok (List.replicate n 7))
        [⟨"p0", 0, 0, DataType.UInt16⟩, ⟨"p1", 0, 1, DataType.UInt16⟩]
        = ([(0, 0)], .error .panicked) :=
  ⟨rfl, rfl, rfl, rfl, rfl⟩

/-- Generalisation of `mapLookup` over the fold accumulator. -/
lemma mapLookup_foldl_mem {α : Type} (k : String) (v : α) :
    ∀ (m : List (String × α)) (acc : Option α),
      List.foldl (fun acc p => if p.1 = k then some p.2 else acc) acc m = some v →
      (k, v) ∈ m ∨ acc = some v := by
  intro m
  induction m with
  | nil => intro acc h'; exact Or.inr h'
  | cons p ps ih =>
    intro acc h'
    rw [List.foldl_cons] at h'
    rcases ih _ h' with h1 | h1
    · exact Or.inl (List.mem_cons_of_mem _ h1)
    · by_cases hp : p.1 = k
      · rw [if_pos hp] at h1
        refine Or.inl ?_
        have hp2 : p = (k, v) := by
          cases p
          simp_all
        rw [← hp2]
        exact List.mem_cons_self _ _
      · rw [if_neg hp] at h1
        exact Or.inr h1

/-- A successful `mapLookup` finds a binding that is in the list. -/
lemma mapLookup_mem {α : Type} (m : List (String × α)) (k : String) (v : α)
    (h : mapLookup m k = some v) : (k, v) ∈ m := by
  rcases mapLookup_foldl_mem k v m none h with h1 | h1
  · exact h1
  · cases h1

/-- C8 counterexample.  The `electrolyzer.rs` variant of `get_defs_from_json`
stores the bit-length field of the record verbatim: a record with `len = 32`
is stored with word length 32, not `32 / 16 = 2`, so the claim is false for
that loader. -/
theorem c8_counterexample :
    mapLookup (Electrolyzer.get_defs_from_json [⟨7, "x", "UInt32", 32⟩]) "x"
      = some ⟨"x", 7, 32, "UInt32"⟩
    ∧ (32 : Nat) ≠ 32 / 16 := by
  exact ⟨rfl, by decide⟩

/-- C8 amended.  For the `modbus_device.rs` loader the claim holds: every
register stored by `get_defs_from_json` comes from a record of the input whose
name is the key, and its word length is the bit-length field of that record
divided by 16 with truncation, so a record with bit length below 16 is stored
with zero words.  (The `electrolyzer.rs` variant stores the bit length
verbatim instead.) -/
theorem c8_amended_length_derivation (records : List RawRegister) (k : String)
    (r : Register) (h : mapLookup (get_defs_from_json records) k = some r) :
    ∃ f ∈ records, f.name = k ∧ r = toRegister f ∧ r.len = f.len / 16
      ∧ (f.len < 16 → r.len = 0) := by
  have hm := mapLookup_mem _ _ _ h
  rw [get_defs_from_json, List.mem_map] at hm
  rcases hm with ⟨f, hf, hfe⟩
  rw [Prod.mk.injEq] at hfe
  obtain ⟨h1, h2⟩ := hfe
  subst h2
  refine ⟨f, hf, h1, rfl, rfl, ?_⟩
  intro hlt
  show f.len / 16 = 0
  exact Nat.div_eq_of_lt hlt

/-- C8 witness: the amended statement at a concrete record with bit length 15,
the lookup hypothesis discharged there. -/
theorem c8_amended_witness :
    ∃ f ∈ [({ id := 3, name := "w", type_ := DataType.UInt16, len := 15 } : RawRegister)],
      f.name = "w"
      ∧ ({ name := "w", addr := 3, len := 0, data_type := DataType.UInt16 } : Register)
          = toRegister f
      ∧ ({ name := "w", addr := 3, len := 0, data_type := DataType.UInt16 } : Register).len
          = f.len / 16
      ∧ (f.len < 16 →
          ({ name := "w", addr := 3, len := 0, data_type := DataType.UInt16 } : Register).len = 0) :=
  c8_amended_length_derivation
    [{ id := 3, name := "w", type_ := DataType.UInt16, len := 15 }] "w"
    { name := "w", addr := 3, len := 0, data_type := DataType.UInt16 } (by rfl)

/-- C5 counterexample.  A connection-reset transport error is in the
connection-dropped class of the claim (it is the very error of the reconnect
scenario cited by the spec), but `manage_modbus_error` matches only
`ErrorKind::BrokenPipe`: on `ConnectionReset` it performs no reconnection
(the flag returned here is `false`) and just lets the next cycle proceed. -/
theorem c5_counterexample :
    manage_modbus_error
      (.ModbusError (.Transport ⟨.ConnectionReset⟩)) [true, true]
      = .errContinue false := rfl

/-- C5 amended.  On a failed dump cycle the loop never exits normally: the
error classified as connection-dropped is exactly a transport io error of
kind `BrokenPipe` — for it reconnection is retried under the backoff policy
and the cycle then continues, but if every attempt the policy makes fails the
`.unwrap()` panics and the process terminates; every other error (including
`ConnectionReset`) logs and continues to the next cycle with no reconnection
attempt. -/
theorem c5_amended_error_classification (err : ModbusError) (attempts : List Bool) :
    manage_modbus_error err attempts
      = (if isBrokenPipeTransport err then
          (if retrySucceeds attempts then .errContinue true else .panicked)
        else .errContinue false)
    ∧ (pollCycleOnError err attempts = .continueLoop
        ↔ (isBrokenPipeTransport err = false ∨ retrySucceeds attempts = true)) := by
  rcases err with code | e | te
  · simp [manage_modbus_error, isBrokenPipeTransport, pollCycleOnError]
  · simp [manage_modbus_error, isBrokenPipeTransport, pollCycleOnError]
  · rcases te with io | _
    · rcases io with ⟨kind⟩
      cases kind <;>
        cases hr : retrySucceeds attempts <;>
          simp [manage_modbus_error, isBrokenPipeTransport, pollCycleOnError, hr]
    · simp [manage_modbus_error, isBrokenPipeTransport, pollCycleOnError]

/-- A transport stub for concrete runs: every read succeeds and returns the
requested number of words, each with value 7. -/
def tr7 : Nat → Nat → Except ModbusError (List Nat) :=
  fun _ n => .ok (List.replicate n 7)

/-- C1 (code bug).  Coverage fails: with two registers `a` and `b` at
contiguous addresses, every transport read and every decode succeeding, the
returned mapping contains only `a` — the scan flushes on `i == regs.len() - 1`
inside the loop, resets the pending batch to the last register and never
flushes it, so the register with the highest address is always lost. -/
theorem c1_last_register_dropped :
    read_input_registers tr7
      [⟨"a", 0, 1, DataType.UInt16⟩, ⟨"b", 1, 1, DataType.UInt16⟩]
      = ([(0, 1)], .ok [("a", .U16 7)])
    ∧ mapLookup [("a", RegisterValue.U16 7)] "b" = none :=
  ⟨rfl, rfl⟩

/-- C2 (code bug).  The final pending batch is not flushed after the scan:
three registers at contiguous addresses produce exactly one transport range,
but it covers only the first two registers (words 0..2), and `c` is absent
from the result — the in-loop `i == regs.len() - 1` flush is not a substitute
for an unconditional post-loop flush. -/
theorem c2_trailing_batch_dropped :
    read_input_registers tr7
      [⟨"a", 0, 1, DataType.UInt16⟩, ⟨"b", 1, 1, DataType.UInt16⟩,
        ⟨"c", 2, 1, DataType.UInt16⟩]
      = ([(0, 2)], .ok [("a", .U16 7), ("b", .U16 7)]) :=
  rfl

set_option maxRecDepth 10000 in
/-- C3 counterexample.  Three registers of lengths 100, 100 and 1 — each well
below 125 — at addresses 0, 100 and 200: the scan only bounds the distance
from the batch start to the address of the next register, so the batch of the
first two registers is flushed as a single transport range of 200 words,
exceeding `MODBUS_MAX_READ_LEN`. -/
theorem c3_counterexample :
    (⟨"x", 0, 100, DataType.UInt16⟩ : Register).len ≤ 125
    ∧ (⟨"y", 100, 100, DataType.UInt16⟩ : Register).len ≤ 125
    ∧ (⟨"z", 200, 1, DataType.UInt16⟩ : Register).len ≤ 125
    ∧ (read_input_registers tr7
        [⟨"x", 0, 100, DataType.UInt16⟩, ⟨"y", 100, 100, DataType.UInt16⟩,
          ⟨"z", 200, 1, DataType.UInt16⟩]).1 = [(0, 200)]
    ∧ MODBUS_MAX_READ_LEN < 200 :=
  ⟨by decide, by decide, by decide, by rfl, by decide⟩

/-- An in-bounds `getR` access yields an element of the list. -/
lemma getR_mem (regs : List Register) (j : Nat) (h : j < regs.length) :
    getR regs j ∈ regs := by
  rw [getR, List.getD_eq_getElem?_getD, List.getElem?_eq_getElem h]
  exact List.getElem_mem h

/-- Invariant of the scan: the address distance from the batch start register
to the batch end register never exceeds 125 (it is reset to 0 on flush and the
loop only extends a batch when the next address is within 125 of the start),
so every `(addr, nb)` passed to the transport satisfies
`nb ≤ 125 + len of the end register`.  With all register lengths ≤ 125 every
call is bounded by 250. -/
lemma readLoop_calls_bound (tr : Nat → Nat → Except ModbusError (List Nat))
    (regs : List Register) (hlen : ∀ r ∈ regs, r.len ≤ 125) :
    ∀ (fuel i start end_ : Nat) (calls : List (Nat × Nat))
      (result : List (String × RegisterValue)),
      end_ < i →
      (getR regs end_).addr - (getR regs start).addr ≤ 125 →
      (∀ c ∈ calls, c.2 ≤ 250) →
      ∀ c ∈ (readLoop tr regs fuel i start end_ calls result).1, c.2 ≤ 250 := by
  intro fuel
  induction fuel with
  | zero =>
    intro i start end_ calls result _ _ hcalls c hc
    exact hcalls c hc
  | succ fuel ih =>
    intro i start end_ calls result hei hdiff hcalls
    rw [readLoop]
    by_cases hi : i < regs.length
    · rw [if_pos hi]
      by_cases hcond : MODBUS_MAX_READ_LEN < (getR regs i).addr - (getR regs start).addr
          ∨ (getR regs i).addr ≠ (getR regs end_).addr + (getR regs end_).len
          ∨ i = regs.length - 1
      · rw [if_pos hcond]
        have hemem : getR regs end_ ∈ regs := getR_mem regs end_ (by omega)
        have helen : (getR regs end_).len ≤ 125 := hlen _ hemem
        have hnb : (getR regs end_).addr + (getR regs end_).len
            - (getR regs start).addr ≤ 250 := by omega
        have hcalls' : ∀ c ∈ calls ++ [((getR regs start).addr,
            (getR regs end_).addr + (getR regs end_).len - (getR regs start).addr)],
            c.2 ≤ 250 := by
          intro c hc
          rcases List.mem_append.mp hc with h | h
          · exact hcalls c h
          · rw [List.mem_singleton] at h
            rw [h]
            exact hnb
        cases htr : tr (getR regs start).addr
            ((getR regs end_).addr + (getR regs end_).len - (getR regs start).addr) with
        | error e =>
          simp only [htr]
          intro c hc
          exact hcalls' c hc
        | ok words =>
          simp only [htr]
          cases hdb : decodeBatch words (getR regs start).addr
              ((regs.drop start).take (end_ + 1 - start)) with
          | error a =>
            simp only [hdb]
            intro c hc
            exact hcalls' c hc
          | ok m =>
            simp only [hdb]
            exact ih (i + 1) i i _ _ (Nat.lt_succ_self i) (by omega) hcalls'
      · rw [if_neg hcond]
        push_neg at hcond
        have hM : MODBUS_MAX_READ_LEN = 125 := rfl
        exact ih (i + 1) start i calls result (Nat.lt_succ_self i)
          (by omega) hcalls
    · rw [if_neg hi]
      intro c hc
      exact hcalls c hc

/-- C3 amended.  When every requested register is at most 125 words long,
every range passed to `read_raw_input_registers` has word count at most 250
(125 for the span from the batch start to the batch end register, plus up to
125 for the length of the end register); the claimed bound of 125 itself does
not hold, since the scan never accounts for the length of the register that
closes the batch. -/
theorem c3_amended_span_bound (tr : Nat → Nat → Except ModbusError (List Nat))
    (regs : List Register) (hlen : ∀ r ∈ regs, r.len ≤ 125) :
    ∀ c ∈ (read_input_registers tr regs).1, c.2 ≤ 250 := by
  intro c hc
  rw [read_input_registers] at hc
  refine readLoop_calls_bound tr (List.insertionSort regLE regs) ?_ _ 1 0 0 [] []
    Nat.zero_lt_one (by simp) (by simp) c hc
  intro r hr
  exact hlen r ((List.mem_insertionSort regLE).mp hr)

set_option maxRecDepth 10000 in
/-- C3 witness: the amended bound applied to the concrete register set of the
counterexample, whose oversized call of 200 words is indeed within 250. -/
theorem c3_amended_witness : ((0, 200) : Nat × Nat).2 ≤ 250 :=
  c3_amended_span_bound tr7
    [⟨"x", 0, 100, DataType.UInt16⟩, ⟨"y", 100, 100, DataType.UInt16⟩,
      ⟨"z", 200, 1, DataType.UInt16⟩]
    (by decide) (0, 200) (by decide)

/-- Little-endian base-65536 digits of a value, `n` words. -/
def natToWordsLE : Nat → Nat → List Nat
| 0, _ => []
| n + 1, v => v % 65536 :: natToWordsLE n (v / 65536)

/-- Encoding by the inverse of the documented byte rule for the numeric
types: the value split into `n` 16-bit words, most significant first (the
reverse of its little-endian digits). -/
def encodeWords (n v : Nat) : List Nat := (natToWordsLE n v).reverse

/-- Regrouping a byte list into 16-bit words, two bytes per word, first byte
high. -/
def bytesToWords : List Nat → List Nat
| hi :: lo :: rest => (hi * 256 + lo) :: bytesToWords rest
| _ => []

/-- Encoding by the inverse of the documented byte rule for `Sized`: reverse
the blob, then regroup into big-endian words. -/
def encodeSized (blob : List Nat) : List Nat := bytesToWords blob.reverse

/-- Representation of a 32-bit signed value as its unsigned bit pattern. -/
def intRep (x : Int) : Nat := (x % (2 ^ 32 : Int)).toNat

lemma natToWordsLE_length (n v : Nat) : (natToWordsLE n v).length = n := by
  induction n generalizing v with
  | zero => rfl
  | succ n ih => simp [natToWordsLE, ih]

lemma natToWordsLE_lt (n v : Nat) : ∀ w ∈ natToWordsLE n v, w < 65536 := by
  induction n generalizing v with
  | zero => intro w hw; cases hw
  | succ n ih =>
    intro w hw
    rcases List.mem_cons.mp hw with h | h
    · rw [h]; exact Nat.mod_lt _ (by norm_num)
    · exact ih _ w h

lemma natToWordsLE_val (n v : Nat) (h : v < 65536 ^ n) :
    (natToWordsLE n v).foldr (fun w acc => w + 65536 * acc) 0 = v := by
  induction n generalizing v with
  | zero =>
    have : v = 0 := by
      have := h
      simp [pow_zero] at this
      omega
    simp [natToWordsLE, this]
  | succ n ih =>
    have hdiv : v / 65536 < 65536 ^ n := by
      rw [Nat.div_lt_iff_lt_mul (by norm_num : 0 < 65536)]
      rw [pow_succ] at h
      exact h
    simp only [natToWordsLE, List.foldr_cons]
    rw [ih _ hdiv]
    omega

/-- Folding the flattened big-endian bytes of a word list accumulates the
words in base 65536, for any starting accumulator. -/
lemma beBytes_flatten (raw : List Nat) (hw : ∀ w ∈ raw, w < 65536) :
    ∀ a : Nat,
      List.foldl (fun acc b => b + 256 * acc) a ((raw.map u16BeBytes).flatten)
        = List.foldl (fun acc w => w + 65536 * acc) a raw := by
  induction raw with
  | nil => intro a; rfl
  | cons w ws ih =>
    intro a
    simp only [List.map_cons, List.flatten_cons, List.foldl_append,
      u16BeBytes, List.foldl_cons]
    rw [ih (fun x hx => hw x (List.mem_cons_of_mem _ hx))]
    have hw' : w < 65536 := hw w (List.mem_cons_self _ _)
    congr 1
    simp only [List.foldl_nil]
    omega

/-- Decoding the byte buffer of an encoded value recovers the value: the
documented reverse-then-little-endian rule equals the big-endian value of the
word sequence. -/
lemma leValue_rawBytes_encode (n v : Nat) (h : v < 65536 ^ n) :
    leValue (rawBytesOfWords (encodeWords n v)) = v := by
  rw [leValue, rawBytesOfWords, encodeWords, List.foldr_reverse]
  rw [beBytes_flatten _ (fun w hw => natToWordsLE_lt n v w (List.mem_reverse.mp hw))]
  rw [List.foldl_reverse]
  exact natToWordsLE_val n v h

lemma rawBytes_encode_length (n v : Nat) :
    (rawBytesOfWords (encodeWords n v)).length = 2 * n := by
  rw [rawBytes_length, encodeWords, List.length_reverse, natToWordsLE_length]

/-- The unsigned 32-bit pattern of an in-range signed value reads back as the
value under twos complement. -/
lemma toSigned32_intRep (x : Int) (h1 : -2 ^ 31 ≤ x) (h2 : x < 2 ^ 31) :
    toSigned32 (intRep x) = x := by
  unfold toSigned32 intRep
  have e32 : (2 : Int) ^ 32 = 4294967296 := by norm_num
  have e31n : (2 : Nat) ^ 31 = 2147483648 := by norm_num
  have e31 : (2 : Int) ^ 31 = 2147483648 := by norm_num
  rw [e32, e31n]
  rw [e31] at h1 h2
  split <;> omega

/-- Splitting an even-length byte list into big-endian words and flattening
the words back into big-endian bytes is the identity. -/
lemma flatten_bytesToWords :
    ∀ (k : Nat) (L : List Nat), L.length = 2 * k → (∀ b ∈ L, b < 256) →
      ((bytesToWords L).map u16BeBytes).flatten = L := by
  intro k
  induction k with
  | zero =>
    intro L hL _
    have : L = [] := List.eq_nil_of_length_eq_zero (by omega)
    rw [this]
    rfl
  | succ k ih =>
    intro L hL hb
    rcases L with _ | ⟨hi, _ | ⟨lo, rest⟩⟩
    · simp at hL
    · simp at hL
      omega
    · have hhi : hi < 256 := hb _ (by simp)
      have hlo : lo < 256 := hb _ (by simp)
      simp only [bytesToWords, List.map_cons, List.flatten_cons, u16BeBytes]
      have h1 : (hi * 256 + lo) / 256 % 256 = hi := by omega
      have h2 : (hi * 256 + lo) % 256 = lo := by omega
      rw [h1, h2, ih rest (by simp at hL; omega)
        (fun b hbm => hb b (List.mem_cons_of_mem _ (List.mem_cons_of_mem _ hbm)))]
      rfl

/-- Decoding an encoded `Sized` blob rebuilds exactly the blob. -/
lemma decode_encodeSized (B : List Nat) (hB : B.length = 66)
    (hb : ∀ b ∈ B, b < 256) :
    tryFromWords (encodeSized B) DataType.Sized = .ok (.Sized B) := by
  have hflat : ((bytesToWords B.reverse).map u16BeBytes).flatten = B.reverse :=
    flatten_bytesToWords 33 B.reverse (by simp [hB])
      (fun b hbm => hb b (List.mem_reverse.mp hbm))
  have hraw : rawBytesOfWords (encodeSized B) = B := by
    rw [rawBytesOfWords, encodeSized, hflat, List.reverse_reverse]
  rw [tryFromWords]
  simp only [hraw, hB]
  rfl

/-- C6.  Decode round-trip for every multi-word type: the decoder implements
the documented rule (big-endian words concatenated, whole buffer reversed,
reinterpreted little-endian), so encoding any in-range value by the inverse
of the rule and decoding it back reproduces the value exactly — `UInt32`,
`UInt64` and `UInt128` for every value below the width, `Int32` for every
signed 32-bit value via its bit pattern, `Float32` for every 32-bit pattern
(`f32::from_le_bytes` is a bit reinterpretation), and `Sized` for every
66-byte blob. -/
theorem c6_decode_round_trip :
    (∀ v : Nat, v < 2 ^ 32 →
      tryFromWords (encodeWords 2 v) DataType.UInt32 = .ok (.U32 v))
    ∧ (∀ v : Nat, v < 2 ^ 64 →
      tryFromWords (encodeWords 4 v) DataType.UInt64 = .ok (.U64 v))
    ∧ (∀ v : Nat, v < 2 ^ 128 →
      tryFromWords (encodeWords 8 v) DataType.UInt128 = .ok (.U128 v))
    ∧ (∀ x : Int, -2 ^ 31 ≤ x → x < 2 ^ 31 →
      tryFromWords (encodeWords 2 (intRep x)) DataType.Int32 = .ok (.S32 x))
    ∧ (∀ bits : Nat, bits < 2 ^ 32 →
      tryFromWords (encodeWords 2 bits) DataType.Float32 = .ok (.Float32 bits))
    ∧ (∀ B : List Nat, B.length = 66 → (∀ b ∈ B, b < 256) →
      tryFromWords (encodeSized B) DataType.Sized = .ok (.Sized B)) := by
  have hpow2 : (2 : Nat) ^ 32 = 65536 ^ 2 := by norm_num
  have hpow4 : (2 : Nat) ^ 64 = 65536 ^ 4 := by norm_num
  have hpow8 : (2 : Nat) ^ 128 = 65536 ^ 8 := by norm_num
  refine ⟨?_, ?_, ?_, ?_, ?_, ?_⟩
  · intro v hv
    rw [tryFromWords]
    simp only [rawBytes_encode_length,
      leValue_rawBytes_encode 2 v (by rw [← hpow2]; exact hv)]
    rfl
  · intro v hv
    rw [tryFromWords]
    simp only [rawBytes_encode_length,
      leValue_rawBytes_encode 4 v (by rw [← hpow4]; exact hv)]
    rfl
  · intro v hv
    rw [tryFromWords]
    simp only [rawBytes_encode_length,
      leValue_rawBytes_encode 8 v (by rw [← hpow8]; exact hv)]
    rfl
  · intro x hx1 hx2
    have hrep : intRep x < 65536 ^ 2 := by
      rw [intRep]
      have e32 : (2 : Int) ^ 32 = 4294967296 := by norm_num
      rw [e32]
      have : (65536 : Nat) ^ 2 = 4294967296 := by norm_num
      rw [this]
      omega
    rw [tryFromWords]
    simp only [rawBytes_encode_length, leValue_rawBytes_encode 2 (intRep x) hrep]
    rw [toSigned32_intRep x hx1 hx2]
    rfl
  · intro bits hb
    rw [tryFromWords]
    simp only [rawBytes_encode_length,
      leValue_rawBytes_encode 2 bits (by rw [← hpow2]; exact hb)]
    rfl
  · exact decode_encodeSized

/-- C6 witness: the round trip at concrete values — `0x01020304` for
`UInt32`, `0x0123456789ABCDEF` for `UInt64`, `1` for `UInt128`, `-2` for
`Int32`, the bit pattern of 3.14159 (`0x40490FDB`) for `Float32`, and a
66-byte blob of 7s for `Sized` — each hypothesis discharged there. -/
theorem c6_round_trip_witness :
    tryFromWords (encodeWords 2 16909060) DataType.UInt32 = .ok (.U32 16909060)
    ∧ tryFromWords (encodeWords 4 81985529216486895) DataType.UInt64
        = .ok (.U64 81985529216486895)
    ∧ tryFromWords (encodeWords 8 1) DataType.UInt128 = .ok (.U128 1)
    ∧ tryFromWords (encodeWords 2 (intRep (-2))) DataType.Int32 = .ok (.S32 (-2))
    ∧ tryFromWords (encodeWords 2 1078530011) DataType.Float32
        = .ok (.Float32 1078530011)
    ∧ tryFromWords (encodeSized (List.replicate 66 7)) DataType.Sized
        = .ok (.Sized (List.replicate 66 7)) :=
  ⟨c6_decode_round_trip.1 16909060 (by norm_num),
    c6_decode_round_trip.2.1 81985529216486895 (by norm_num),
    c6_decode_round_trip.2.2.1 1 (by norm_num),
    c6_decode_round_trip.2.2.2.1 (-2) (by norm_num) (by norm_num),
    c6_decode_round_trip.2.2.2.2.1 1078530011 (by norm_num),
    c6_decode_round_trip.2.2.2.2.2 (List.replicate 66 7) (by decide) (by decide)⟩

/-- Dropping the elements on which `f` returns `none` before a `filterMap`
changes nothing. -/
lemma filterMap_filter_isSome {α β : Type} (f : α → Option β) (l : List α) :
    (l.filter (fun a => (f a).isSome)).filterMap f = l.filterMap f := by
  induction l with
  | nil => rfl
  | cons a as ih =>
    cases hf : f a <;>
      simp [List.filter_cons, List.filterMap_cons, hf, ih]

/-- Every entry produced by `decodeBatch` is named after one of the batch
member registers. -/
lemma decodeBatch_keys (words : List Nat) (baseAddr : Nat) :
    ∀ (rs : List Register) (m : List (String × RegisterValue)),
      decodeBatch words baseAddr rs = .ok m →
      ∀ p ∈ m, ∃ r ∈ rs, r.name = p.1 := by
  intro rs
  induction rs with
  | nil =>
    intro m h p hp
    rw [decodeBatch] at h
    cases h
    cases hp
  | cons v rest ih =>
    intro m h p hp
    rw [decodeBatch] at h
    by_cases hin : v.addr - baseAddr + v.len ≤ words.length
    · rw [if_pos hin] at h
      cases htf : tryFromWords ((words.drop (v.addr - baseAddr)).take v.len)
          v.data_type with
      | panicked => rw [htf] at h; cases h
      | err bs =>
        rw [htf] at h
        rcases ih m h p hp with ⟨r, hr, hname⟩
        exact ⟨r, List.mem_cons_of_mem _ hr, hname⟩
      | ok rv =>
        rw [htf] at h
        cases hdb : decodeBatch words baseAddr rest with
        | error a => rw [hdb] at h; cases h
        | ok m' =>
          rw [hdb] at h
          cases h
          rcases List.mem_cons.mp hp with hp1 | hp1
          · exact ⟨v, List.mem_cons_self _ _, by rw [hp1]⟩
          · rcases ih m' hdb p hp1 with ⟨r, hr, hname⟩
            exact ⟨r, List.mem_cons_of_mem _ hr, hname⟩
    · rw [if_neg hin] at h
      cases h

/-- Every entry of a successful scan result is named after one of the
registers of the (sorted) request, provided the entries accumulated so far
are. -/
lemma readLoop_keys (tr : Nat → Nat → Except ModbusError (List Nat))
    (regs : List Register) :
    ∀ (fuel i start end_ : Nat) (calls callsO : List (Nat × Nat))
      (result res : List (String × RegisterValue)),
      (∀ p ∈ result, ∃ r ∈ regs, r.name = p.1) →
      readLoop tr regs fuel i start end_ calls result = (callsO, .ok res) →
      ∀ p ∈ res, ∃ r ∈ regs, r.name = p.1 := by
  intro fuel
  induction fuel with
  | zero =>
    intro i start end_ calls callsO result res hres h
    rw [readLoop] at h
    rw [Prod.mk.injEq] at h
    obtain ⟨h1, h2⟩ := h
    cases h2
    exact hres
  | succ fuel ih =>
    intro i start end_ calls callsO result res hres h
    rw [readLoop] at h
    by_cases hi : i < regs.length
    · rw [if_pos hi] at h
      by_cases hcond : MODBUS_MAX_READ_LEN < (getR regs i).addr - (getR regs start).addr
          ∨ (getR regs i).addr ≠ (getR regs end_).addr + (getR regs end_).len
          ∨ i = regs.length - 1
      · rw [if_pos hcond] at h
        cases htr : tr (getR regs start).addr
            ((getR regs end_).addr + (getR regs end_).len - (getR regs start).addr) with
        | error e =>
          simp only [htr] at h
          simp at h
        | ok words =>
          simp only [htr] at h
          cases hdb : decodeBatch words (getR regs start).addr
              ((regs.drop start).take (end_ + 1 - start)) with
          | error a =>
            simp only [hdb] at h
            simp at h
          | ok m =>
            simp only [hdb] at h
            refine ih (i + 1) i i _ callsO (result ++ m) res ?_ h
            intro p hp
            rcases List.mem_append.mp hp with hp1 | hp1
            · exact hres p hp1
            · rcases decodeBatch_keys words (getR regs start).addr _ m hdb p hp1
                with ⟨r, hr, hname⟩
              exact ⟨r, List.mem_of_mem_drop (List.mem_of_mem_take hr), hname⟩
      · rw [if_neg hcond] at h
        exact ih (i + 1) start i calls callsO result res hres h
    · rw [if_neg hi] at h
      rw [Prod.mk.injEq] at h
      obtain ⟨h1, h2⟩ := h
      cases h2
      exact hres

/-- Every key of a successful `read_input_registers` result is the name of
one of the requested registers. -/
lemma read_input_registers_keys (tr : Nat → Nat → Except ModbusError (List Nat))
    (regs : List Register) (calls : List (Nat × Nat))
    (res : List (String × RegisterValue))
    (h : read_input_registers tr regs = (calls, .ok res)) :
    ∀ p ∈ res, ∃ r ∈ regs, r.name = p.1 := by
  rw [read_input_registers] at h
  intro p hp
  rcases readLoop_keys tr (List.insertionSort regLE regs) _ 1 0 0 [] calls [] res
      (by intro q hq; cases hq) h p hp with ⟨r, hr, hname⟩
  exact ⟨r, (List.mem_insertionSort regLE).mp hr, hname⟩

/-- C9.  Unknown-name tolerance of `read_input_registers_by_name`: the call
behaves exactly as if the names absent from the catalog had not been
requested (they are dropped by the `filter_map`, never an error), and — for a
catalog whose entries are keyed by the register name, as the loader builds
them — a name absent from the catalog cannot appear as a key of a successful
result; the names present in the catalog are passed on unchanged. -/
theorem c9_unknown_name_tolerance (tr : Nat → Nat → Except ModbusError (List Nat))
    (catalog : List (String × Register)) (names : List String) :
    read_input_registers_by_name tr catalog names
      = read_input_registers_by_name tr catalog
          (names.filter (fun n => (mapLookup catalog n).isSome))
    ∧ (∀ n, mapLookup catalog n = none →
        (∀ k r, mapLookup catalog k = some r → r.name = k) →
        ∀ calls res,
          read_input_registers_by_name tr catalog names = (calls, .ok res) →
          ∀ v : RegisterValue, (n, v) ∉ res) := by
  constructor
  · rw [read_input_registers_by_name, read_input_registers_by_name,
      filterMap_filter_isSome]
  · intro n hnone hwf calls res h v hmem
    rw [read_input_registers_by_name] at h
    rcases read_input_registers_keys tr _ calls res h (n, v) hmem
      with ⟨r, hr, hname⟩
    rcases List.mem_filterMap.mp hr with ⟨m, _, hlook⟩
    have : r.name = m := hwf m r hlook
    rw [this] at hname
    rw [hname] at hlook
    rw [hlook] at hnone
    cases hnone

/-- C9 witness: a concrete catalog of `a` and `b`, the request
`["a", "b", "zz"]` with `zz` unknown; the key `zz` is absent from the
result, every hypothesis discharged at the concrete input. -/
theorem c9_unknown_name_witness :
    ("zz", RegisterValue.U16 7) ∉ [("a", RegisterValue.U16 7)] :=
  (c9_unknown_name_tolerance tr7
    [("a", ⟨"a", 0, 1, DataType.UInt16⟩), ("b", ⟨"b", 1, 1, DataType.UInt16⟩)]
    ["a", "b", "zz"]).2 "zz" (by decide)
    (fun k r h => by
      have hm := mapLookup_mem _ _ _ h
      rcases List.mem_cons.mp hm with h1 | h1
      · rw [Prod.mk.injEq] at h1
        rw [h1.2, h1.1]
      · rw [List.mem_singleton, Prod.mk.injEq] at h1
        rw [h1.2, h1.1])
    [(0, 1)] [("a", RegisterValue.U16 7)] (by rfl) (RegisterValue.U16 7)
